import Mathlib

/-!
Verification of `find_figpack_urls.py`.

The program is a five-stage pipeline: GitHub code search (paginated, with a
single rate-limit retry), reduction of search hits to a sorted set of unique
repositories, shallow cloning (skipping already-present directories),
scanning every Markdown file for URLs delimited by a fixed prefix and suffix,
and first-occurrence deduplication plus JSON output.

This file gives a shallow embedding of those parts of the program:

* Python strings become `List Char`; `text.find(sub, pos)` becomes `findFrom`
  (returning `none` instead of `-1`).
* The per-file while-loop of `scan_repo_for_figpack` becomes `extract_urls`.
* Network, clock, filesystem and subprocess effects are passed explicitly:
  HTTP responses come from an oracle `respond : Nat → Nat → HttpResp`
  (page, attempt); requests and sleeps are recorded as a `QueryEvent` trace;
  the set of directories on disk is a `List String`; success of an actual
  `git clone` invocation is an oracle `gitOk`; the Markdown files of a cloned
  repository come from an oracle `repoFiles`.
* The two thread pools only reorder completion of independent per-repository
  tasks; the embedding runs the tasks sequentially in submission order.
-/

set_option linter.unusedVariables false

/-- Source line 35: the literal URL head marker of the program. -/
def FIGPACK_PREFIX : String := "https://figures.figpack.org/"

/-- Source line 36: the literal URL tail marker of the program. -/
def FIGPACK_SUFFIX : String := "/index.html"

/-- First index `i ≤ l.length` such that `sub` is a prefix of `l.drop i`,
if any.  Helper for `findFrom`. -/
def findIn (sub : List Char) : List Char → Option Nat
  | [] => if sub.isPrefixOf [] then some 0 else none
  | c :: cs => if sub.isPrefixOf (c :: cs) then some 0
               else (findIn sub cs).map (· + 1)

/-- Models Python `text.find(sub, pos)`: the least index `i ≥ pos` at which
`sub` occurs in `text`, or `none` (Python returns `-1`) when there is no
such occurrence or `pos` is past the end of the string. -/
def findFrom (sub text : List Char) (pos : Nat) : Option Nat :=
  if pos ≤ text.length then (findIn sub (text.drop pos)).map (· + pos) else none

/-- The per-file extraction loop of `scan_repo_for_figpack`
(source lines 191–213): find the next occurrence of `FIGPACK_PREFIX` at
`start_idx`; search for `FIGPACK_SUFFIX` from `start_idx` itself; on a miss
continue from `start_idx + 1`; on a hit at `end_idx` emit
`text[start_idx : end_idx + len(FIGPACK_SUFFIX)]` and continue from
`end_idx + 1`. -/
def extract_urls (text : List Char) (pos : Nat) : List (List Char) :=
  match hs : findFrom FIGPACK_PREFIX.toList text pos with
  | none => []
  | some start_idx =>
    match he : findFrom FIGPACK_SUFFIX.toList text start_idx with
    | none => extract_urls text (start_idx + 1)
    | some end_idx =>
      (text.drop start_idx).take (end_idx + FIGPACK_SUFFIX.toList.length - start_idx) ::
        extract_urls text (end_idx + 1)
termination_by text.length + 1 - pos
decreasing_by
  · rw [findFrom] at hs
    split at hs
    · rw [Option.map_eq_some'] at hs
      obtain ⟨j, _, rfl⟩ := hs
      omega
    · exact absurd hs (by simp)
  · rw [findFrom] at hs
    rw [findFrom] at he
    split at hs
    · rw [Option.map_eq_some'] at hs
      obtain ⟨j, _, rfl⟩ := hs
      split at he
      · rw [Option.map_eq_some'] at he
        obtain ⟨j', _, rfl⟩ := he
        omega
      · exact absurd he (by simp)
    · exact absurd hs (by simp)

/-- Modelled from the spec (spec §4.4, the algorithm quoted by claim C1):
scan left to right with a cursor; locate the next occurrence of the prefix
string at `s`; search for the next occurrence of the suffix string starting
at `s` itself; if no suffix exists, set the cursor to `s + 1` and keep
looking; if a suffix of length `L` is found at `e`, emit the substring from
`s` to `e + L` and set the cursor to `e + 1`.  This is the spec-words side
of the refinement claim C1, to be compared with `extract_urls`. -/
def specExtractUrls (text : List Char) (cursor : Nat) : List (List Char) :=
  match hs : findFrom FIGPACK_PREFIX.toList text cursor with
  | none => []
  | some s =>
    match he : findFrom FIGPACK_SUFFIX.toList text s with
    | none => specExtractUrls text (s + 1)
    | some e =>
      (text.drop s).take (e + FIGPACK_SUFFIX.toList.length - s) ::
        specExtractUrls text (e + 1)
termination_by text.length + 1 - cursor
decreasing_by
  · rw [findFrom] at hs
    split at hs
    · rw [Option.map_eq_some'] at hs
      obtain ⟨j, _, rfl⟩ := hs
      omega
    · exact absurd hs (by simp)
  · rw [findFrom] at hs
    rw [findFrom] at he
    split at hs
    · rw [Option.map_eq_some'] at hs
      obtain ⟨j, _, rfl⟩ := hs
      split at he
      · rw [Option.map_eq_some'] at he
        obtain ⟨j', _, rfl⟩ := he
        omega
      · exact absurd he (by simp)
    · exact absurd hs (by simp)

/-- Number of passes of the `while True` loop in `scan_repo_for_figpack`
that take a recursive step (i.e. all passes except the final one that
breaks because no further prefix occurrence exists). -/
def scanSteps (text : List Char) (pos : Nat) : Nat :=
  match hs : findFrom FIGPACK_PREFIX.toList text pos with
  | none => 0
  | some start_idx =>
    match he : findFrom FIGPACK_SUFFIX.toList text start_idx with
    | none => 1 + scanSteps text (start_idx + 1)
    | some end_idx => 1 + scanSteps text (end_idx + 1)
termination_by text.length + 1 - pos
decreasing_by
  · rw [findFrom] at hs
    split at hs
    · rw [Option.map_eq_some'] at hs
      obtain ⟨j, _, rfl⟩ := hs
      omega
    · exact absurd hs (by simp)
  · rw [findFrom] at hs
    rw [findFrom] at he
    split at hs
    · rw [Option.map_eq_some'] at hs
      obtain ⟨j, _, rfl⟩ := hs
      split at he
      · rw [Option.map_eq_some'] at he
        obtain ⟨j', _, rfl⟩ := he
        omega
      · exact absurd he (by simp)
    · exact absurd hs (by simp)

/-- Output record of the program: the dict
`{"repo": full_name, "file": rel, "url": url}` built at source lines 206–212. -/
structure MatchRecord where
  repo : String
  file : String
  url : String
deriving DecidableEq, Repr

/-- The records `scan_repo_for_figpack` produces for one Markdown file
(`full_name` is the repository, `rel` the path of the file relative to the
repository root). -/
def scan_file (full_name rel : String) (text : List Char) : List MatchRecord :=
  (extract_urls text 0).map (fun u => { repo := full_name, file := rel, url := String.mk u })

/-- The records `scan_repo_for_figpack` produces for one repository, given
the relative path and decoded text of each of its Markdown files (the
`rglob("*.md")` enumeration and text decoding are filesystem effects passed
in as data; a file whose decode failed contributes an empty text, for which
`extract_urls` finds nothing, matching the `if not text: continue`). -/
def scan_repo_for_figpack (full_name : String) (files : List (String × List Char)) :
    List MatchRecord :=
  files.flatMap (fun f => scan_file full_name f.1 f.2)

/-- The dedup key used at source line 296: `(rec["repo"], rec["file"], rec["url"])`. -/
def recKey (r : MatchRecord) : String × String × String := (r.repo, r.file, r.url)

/-- The dedup loop of `main` (source lines 293–299), with the Python `seen`
set modelled as the list of keys added so far. -/
def dedup_go (seen : List (String × String × String)) : List MatchRecord → List MatchRecord
  | [] => []
  | r :: rest =>
    if recKey r ∈ seen then dedup_go seen rest
    else r :: dedup_go (recKey r :: seen) rest

/-- Source lines 292–299: de-duplicate exact `(repo, file, url)` triples. -/
def dedupRecords (records : List MatchRecord) : List MatchRecord := dedup_go [] records

/-- Modelled from the spec (the dedup law quoted by claim C4): keep each
distinct `(repo, file, url)` triple exactly once, at its first occurrence,
dropping every later record whose triple was already seen.  Spec-words side
of the refinement claim C4, to be compared with `dedupRecords`. -/
def firstOccDedup : List MatchRecord → List MatchRecord
  | [] => []
  | r :: rest => r :: firstOccDedup (rest.filter (fun x => decide (recKey x ≠ recKey r)))
termination_by l => l.length
decreasing_by
  simp only [List.length_cons]
  exact Nat.lt_succ_of_le (List.length_filter_le _ _)

/-- One element of the `items` array of a search response; the program only
ever reads `item["repository"]["full_name"]` (`none` when absent). -/
structure SearchItem where
  full_name : Option String
deriving DecidableEq, Repr

/-- An HTTP response as the program observes it: status code, the
`X-RateLimit-Remaining` header (a string, `none` when absent), the
`X-RateLimit-Reset` header (already parsed to an integer timestamp; `none`
when absent or falsy), and the parsed `items` list. -/
structure HttpResp where
  status : Nat
  remaining : Option String
  reset : Option Int
  items : List SearchItem
deriving DecidableEq, Repr

/-- Observable effects of the Query Stage: an HTTP GET of a given page
(`attempt` is 0 for the first request, 1 for the rate-limit retry), or a
`time.sleep` of a given number of seconds. -/
inductive QueryEvent where
  | request : Nat → Nat → QueryEvent
  | sleep : Int → QueryEvent
deriving DecidableEq, Repr

/-- Source lines 68–79, `handle_rate_limit`: on a 403 response whose
`X-RateLimit-Remaining` header equals `"0"` and whose `X-RateLimit-Reset`
header is present, sleep `max(0, reset_ts - int(time.time())) + 1` seconds;
otherwise do nothing.  Returns the sleep events performed. -/
def handle_rate_limit (resp : HttpResp) (now : Int) : List QueryEvent :=
  if resp.status ≠ 403 then []
  else
    match resp.remaining, resp.reset with
    | some "0", some reset_ts => [QueryEvent.sleep (max 0 (reset_ts - now) + 1)]
    | _, _ => []

/-- Source lines 97–100: one page of `search_code`.  Issue the request; if
the response status is 403, call `handle_rate_limit` and issue the request
once more; return the final response together with the event trace. -/
def fetch_page (respond : Nat → Nat → HttpResp) (now : Int) (page : Nat) :
    HttpResp × List QueryEvent :=
  let r0 := respond page 0
  if r0.status = 403 then
    (respond page 1, QueryEvent.request page 0 :: handle_rate_limit r0 now ++
      [QueryEvent.request page 1])
  else (r0, [QueryEvent.request page 0])

/-- The page loop of `search_code` (source lines 90–114) over an explicit
list of page numbers: stop with what was accumulated on a non-200 response;
stop before extending on an empty item list; stop after extending on a
short page. -/
def search_code_go (respond : Nat → Nat → HttpResp) (now : Int) (per_page : Nat) :
    List Nat → List SearchItem × List QueryEvent
  | [] => ([], [])
  | page :: rest =>
    let step := fetch_page respond now page
    if step.1.status ≠ 200 then ([], step.2)
    else if step.1.items.isEmpty then ([], step.2)
    else if step.1.items.length < per_page then (step.1.items, step.2)
    else
      let tail := search_code_go respond now per_page rest
      (step.1.items ++ tail.1, step.2 ++ tail.2)

/-- Source lines 82–116, `search_code`: iterate pages `1 .. max_pages`,
returning all collected items and the trace of requests and sleeps. -/
def search_code (respond : Nat → Nat → HttpResp) (now : Int) (max_pages per_page : Nat) :
    List SearchItem × List QueryEvent :=
  search_code_go respond now per_page (List.range' 1 max_pages)

/-- Modelled from the spec (the Query Stage contract quoted by claim C6):
the concatenation of the item lists of the given pages, stopping at the
first page whose post-retry response status is not 200 (keeping all
previously accumulated items), or whose item list is empty (that page
contributing nothing), or whose item count is less than `per_page` (that
page's items being included), checked in that order.  Spec-words side of
the refinement claim C6, to be compared with `search_code`. -/
def specQueryItems (respond : Nat → Nat → HttpResp) (now : Int) (per_page : Nat) :
    List Nat → List SearchItem
  | [] => []
  | page :: rest =>
    let resp := (fetch_page respond now page).1
    if resp.status ≠ 200 then []
    else if resp.items.isEmpty then []
    else if resp.items.length < per_page then resp.items
    else resp.items ++ specQueryItems respond now per_page rest

/-- Python `full_name.replace("/", "__")` on the character list. -/
def sanitize : List Char → List Char
  | [] => []
  | c :: cs => if c = '/' then '_' :: '_' :: sanitize cs else c :: sanitize cs

/-- Source line 136: the deterministic clone target
`workdir / full_name.replace("/", "__")`. -/
def cloneTarget (workdir full_name : String) : String :=
  workdir ++ "/" ++ String.mk (sanitize full_name.toList)

/-- Return value of `clone_repo`: `(repo_full_name, clone_path, success)`. -/
structure CloneResult where
  full_name : String
  path : String
  ok : Bool
deriving DecidableEq, Repr

/-- Source lines 131–166, `clone_repo`.  The set of directories on disk is
the list `fsDirs`; whether an actual `git clone` invocation succeeds is the
oracle `gitOk` (a failed clone leaves no target directory).  Returns the
result triple, the new directory set, and the number of `git clone`
invocations performed (0 when the target already exists, else 1). -/
def clone_repo (gitOk : String → Bool) (fsDirs : List String) (full_name workdir : String) :
    CloneResult × List String × Nat :=
  let target := cloneTarget workdir full_name
  if target ∈ fsDirs then ({ full_name := full_name, path := target, ok := true }, fsDirs, 0)
  else if gitOk full_name then
    ({ full_name := full_name, path := target, ok := true }, target :: fsDirs, 1)
  else ({ full_name := full_name, path := target, ok := false }, fsDirs, 1)

/-- The Acquisition stage of `main` (source lines 257–267) run over the
repository list (the thread pool only reorders completion of independent
tasks; the embedding runs them in submission order): returns the
successfully cloned `(full_name, path)` pairs, the final directory set, and
the total number of `git clone` invocations. -/
def acquireAll (gitOk : String → Bool) (workdir : String) (fs0 : List String)
    (repos : List String) : List (String × String) × List String × Nat :=
  repos.foldl
    (fun acc n =>
      let step := clone_repo gitOk acc.2.1 n workdir
      (if step.1.ok then acc.1 ++ [(n, step.1.path)] else acc.1, step.2.1, acc.2.2 + step.2.2))
    ([], fs0, 0)

/-- Insert a string into a `≤`-sorted list. -/
def insertSorted (s : String) : List String → List String
  | [] => [s]
  | t :: ts => if s ≤ t then s :: t :: ts else t :: insertSorted s ts

/-- Insertion sort on strings, modelling Python `sorted`. -/
def sortStrings : List String → List String
  | [] => []
  | s :: ss => insertSorted s (sortStrings ss)

/-- Source lines 119–128, `collect_unique_repos`: the sorted list of the
distinct `full_name` values of the hits (hits lacking one are skipped). -/
def collect_unique_repos (items : List SearchItem) : List String :=
  sortStrings (items.filterMap SearchItem.full_name).dedup

/-- JSON string escaping for the characters that can occur in the output
records (backslash, quote, and common control characters). -/
def escapeJsonChar (c : Char) : List Char :=
  if c = '\\' then ['\\', '\\']
  else if c = '"' then ['\\', '"']
  else if c = '\n' then ['\\', 'n']
  else if c = '\t' then ['\\', 't']
  else if c = '\r' then ['\\', 'r']
  else [c]

/-- Escape a string for inclusion in a JSON string literal. -/
def escapeJson (s : String) : String := String.mk (s.toList.flatMap escapeJsonChar)

/-- The `json.dumps(..., indent=2, ensure_ascii=False)` rendering of one
output record. -/
def recordJson (r : MatchRecord) : String :=
  "\x7b\n    \"repo\": \"" ++ escapeJson r.repo ++
    "\",\n    \"file\": \"" ++ escapeJson r.file ++
    "\",\n    \"url\": \"" ++ escapeJson r.url ++ "\"\n  \x7d"

/-- The `json.dumps(deduped, indent=2, ensure_ascii=False)` call of source
line 304 for a list of records (an empty list renders as the bare empty
array). -/
def jsonDumps (records : List MatchRecord) : String :=
  if records.isEmpty then "[]"
  else "[\n  " ++ String.intercalate ",\n  " (records.map recordJson) ++ "\n]"

/-- Observable outcome of one run of `main` (source lines 218–306): the
text written to the output file, the number of `git clone` invocations, and
whether the Scan stage (Step 4) was reached.  `main` returns normally (exit
code 0) on every path modelled here. -/
structure PipelineRun where
  written : String
  cloneCalls : Nat
  ranScan : Bool
deriving DecidableEq, Repr

/-- The pipeline of `main` after the `git --version` startup check: search,
collect, early exit with `"[]"` when no repositories were found, clone,
early exit with `"[]"` when no clone succeeded, scan, dedup, write. -/
def mainModel (respond : Nat → Nat → HttpResp) (now : Int) (maxPages perPage : Nat)
    (gitOk : String → Bool) (fs0 : List String) (workdir : String)
    (repoFiles : String → List (String × List Char)) : PipelineRun :=
  let items := (search_code respond now maxPages perPage).1
  let repos := collect_unique_repos items
  if repos.isEmpty then { written := "[]", cloneCalls := 0, ranScan := false }
  else
    let acq := acquireAll gitOk workdir fs0 repos
    if acq.1.isEmpty then { written := "[]", cloneCalls := acq.2.2, ranScan := false }
    else
      let all_records := acq.1.flatMap (fun p => scan_repo_for_figpack p.1 (repoFiles p.1))
      { written := jsonDumps (dedupRecords all_records), cloneCalls := acq.2.2, ranScan := true }

/-! ### Helper lemmas about the searching primitives -/

theorem findIn_eq_some {sub : List Char} :
    ∀ {l : List Char} {j : Nat}, findIn sub l = some j →
      j ≤ l.length ∧ sub <+: l.drop j := by
  intro l
  induction l with
  | nil =>
    intro j h
    rw [findIn] at h
    split at h
    · injection h with h
      subst h
      refine ⟨Nat.le_refl _, ?_⟩
      rw [List.drop_nil]
      exact (List.isPrefixOf_iff_prefix).1 (by assumption)
    · exact absurd h (by simp)
  | cons c cs ih =>
    intro j h
    rw [findIn] at h
    split at h
    · injection h with h
      subst h
      exact ⟨Nat.zero_le _, (List.isPrefixOf_iff_prefix).1 (by assumption)⟩
    · rw [Option.map_eq_some'] at h
      obtain ⟨a, ha, rfl⟩ := h
      obtain ⟨h1, h2⟩ := ih ha
      exact ⟨by simpa using Nat.succ_le_succ h1, by simpa using h2⟩

theorem findFrom_eq_some {sub text : List Char} {pos i : Nat}
    (h : findFrom sub text pos = some i) :
    pos ≤ i ∧ i ≤ text.length ∧ sub <+: text.drop i := by
  rw [findFrom] at h
  split at h
  · rw [Option.map_eq_some'] at h
    obtain ⟨j, hj, rfl⟩ := h
    obtain ⟨h1, h2⟩ := findIn_eq_some hj
    rw [List.length_drop] at h1
    refine ⟨Nat.le_add_left _ _, by omega, ?_⟩
    rw [List.drop_drop] at h2
    rwa [Nat.add_comm] at h2
  · exact absurd h (by simp)

/-! ### Step equations for the extraction loop -/

theorem extract_none {text : List Char} {pos : Nat}
    (h : findFrom FIGPACK_PREFIX.toList text pos = none) : extract_urls text pos = [] := by
  rw [extract_urls, h]

theorem extract_miss {text : List Char} {pos s : Nat}
    (h1 : findFrom FIGPACK_PREFIX.toList text pos = some s)
    (h2 : findFrom FIGPACK_SUFFIX.toList text s = none) :
    extract_urls text pos = extract_urls text (s + 1) := by
  rw [extract_urls]
  split
  next hs => rw [hs] at h1; exact absurd h1 (by simp)
  next s' hs =>
    rw [h1] at hs
    injection hs with hs
    subst hs
    split
    next => rfl
    next e' he => rw [h2] at he; exact absurd he (by simp)

theorem extract_hit {text : List Char} {pos s e : Nat}
    (h1 : findFrom FIGPACK_PREFIX.toList text pos = some s)
    (h2 : findFrom FIGPACK_SUFFIX.toList text s = some e) :
    extract_urls text pos =
      (text.drop s).take (e + FIGPACK_SUFFIX.toList.length - s) :: extract_urls text (e + 1) := by
  rw [extract_urls]
  split
  next hs => rw [hs] at h1; exact absurd h1 (by simp)
  next s' hs =>
    rw [h1] at hs
    injection hs with hs
    subst hs
    split
    next he => rw [h2] at he; exact absurd he (by simp)
    next e' he =>
      rw [h2] at he
      injection he with he
      subst he
      rfl

theorem spec_extract_none {text : List Char} {pos : Nat}
    (h : findFrom FIGPACK_PREFIX.toList text pos = none) : specExtractUrls text pos = [] := by
  rw [specExtractUrls, h]

theorem spec_extract_miss {text : List Char} {pos s : Nat}
    (h1 : findFrom FIGPACK_PREFIX.toList text pos = some s)
    (h2 : findFrom FIGPACK_SUFFIX.toList text s = none) :
    specExtractUrls text pos = specExtractUrls text (s + 1) := by
  rw [specExtractUrls]
  split
  next hs => rw [hs] at h1; exact absurd h1 (by simp)
  next s' hs =>
    rw [h1] at hs
    injection hs with hs
    subst hs
    split
    next => rfl
    next e' he => rw [h2] at he; exact absurd he (by simp)

theorem spec_extract_hit {text : List Char} {pos s e : Nat}
    (h1 : findFrom FIGPACK_PREFIX.toList text pos = some s)
    (h2 : findFrom FIGPACK_SUFFIX.toList text s = some e) :
    specExtractUrls text pos =
      (text.drop s).take (e + FIGPACK_SUFFIX.toList.length - s) ::
        specExtractUrls text (e + 1) := by
  rw [specExtractUrls]
  split
  next hs => rw [hs] at h1; exact absurd h1 (by simp)
  next s' hs =>
    rw [h1] at hs
    injection hs with hs
    subst hs
    split
    next he => rw [h2] at he; exact absurd he (by simp)
    next e' he =>
      rw [h2] at he
      injection he with he
      subst he
      rfl

theorem steps_none {text : List Char} {pos : Nat}
    (h : findFrom FIGPACK_PREFIX.toList text pos = none) : scanSteps text pos = 0 := by
  rw [scanSteps, h]

theorem steps_miss {text : List Char} {pos s : Nat}
    (h1 : findFrom FIGPACK_PREFIX.toList text pos = some s)
    (h2 : findFrom FIGPACK_SUFFIX.toList text s = none) :
    scanSteps text pos = 1 + scanSteps text (s + 1) := by
  rw [scanSteps]
  split
  next hs => rw [hs] at h1; exact absurd h1 (by simp)
  next s' hs =>
    rw [h1] at hs
    injection hs with hs
    subst hs
    split
    next => rfl
    next e' he => rw [h2] at he; exact absurd he (by simp)

theorem steps_hit {text : List Char} {pos s e : Nat}
    (h1 : findFrom FIGPACK_PREFIX.toList text pos = some s)
    (h2 : findFrom FIGPACK_SUFFIX.toList text s = some e) :
    scanSteps text pos = 1 + scanSteps text (e + 1) := by
  rw [scanSteps]
  split
  next hs => rw [hs] at h1; exact absurd h1 (by simp)
  next s' hs =>
    rw [h1] at hs
    injection hs with hs
    subst hs
    split
    next he => rw [h2] at he; exact absurd he (by simp)
    next e' he =>
      rw [h2] at he
      injection he with he
      subst he
      rfl

/-! ### The two URL markers cannot overlap by more than sharing a slash -/

theorem headMarker_length : FIGPACK_PREFIX.toList.length = 28 := by decide

theorem tailMarker_length : FIGPACK_SUFFIX.toList.length = 11 := by decide

theorem tailMarker_not_inside_head :
    ∀ k, k < 17 →
      FIGPACK_SUFFIX.toList.isPrefixOf (FIGPACK_PREFIX.toList.drop k) = false := by
  decide

theorem marker_gap {text : List Char} {s e : Nat} (hse : s ≤ e)
    (hp : FIGPACK_PREFIX.toList <+: text.drop s)
    (ht : FIGPACK_SUFFIX.toList <+: text.drop e) : s + 17 ≤ e := by
  by_contra hlt
  push_neg at hlt
  obtain ⟨t1, ht1⟩ := hp
  have hdrop : text.drop e = FIGPACK_PREFIX.toList.drop (e - s) ++ t1 := by
    have h1 : text.drop e = (text.drop s).drop (e - s) := by
      rw [List.drop_drop]
      congr 1
      omega
    rw [h1, ← ht1, List.drop_append_eq_append_drop]
    have h0 : e - s - FIGPACK_PREFIX.toList.length = 0 := by
      rw [headMarker_length]; omega
    rw [h0, List.drop_zero]
  have hsp : FIGPACK_SUFFIX.toList <+: FIGPACK_PREFIX.toList.drop (e - s) := by
    have hta : FIGPACK_SUFFIX.toList <+: FIGPACK_PREFIX.toList.drop (e - s) ++ t1 := by
      rw [← hdrop]; exact ht
    refine List.prefix_of_prefix_length_le hta (List.prefix_append _ _) ?_
    rw [List.length_drop, headMarker_length, tailMarker_length]
    omega
  have hfalse := tailMarker_not_inside_head (e - s) (by omega)
  rw [(List.isPrefixOf_iff_prefix).2 hsp] at hfalse
  exact absurd hfalse (by simp)

theorem url_shape {text : List Char} {s e : Nat} (hse : s ≤ e)
    (hp : FIGPACK_PREFIX.toList <+: text.drop s)
    (ht : FIGPACK_SUFFIX.toList <+: text.drop e) :
    FIGPACK_PREFIX.toList <+: (text.drop s).take (e + FIGPACK_SUFFIX.toList.length - s) ∧
    FIGPACK_SUFFIX.toList <:+ (text.drop s).take (e + FIGPACK_SUFFIX.toList.length - s) := by
  have hgap := marker_gap hse hp ht
  obtain ⟨t1, ht1⟩ := hp
  obtain ⟨t2, ht2⟩ := ht
  constructor
  · rw [← ht1, List.take_append_eq_append_take]
    have h28 : FIGPACK_PREFIX.toList.length ≤ e + FIGPACK_SUFFIX.toList.length - s := by
      rw [headMarker_length, tailMarker_length]
      omega
    rw [List.take_of_length_le h28]
    exact List.prefix_append _ _
  · have hkey : ((text.drop s).take (e + FIGPACK_SUFFIX.toList.length - s)).drop (e - s)
        = FIGPACK_SUFFIX.toList := by
      rw [List.drop_take]
      have h1 : (text.drop s).drop (e - s) = text.drop e := by
        rw [List.drop_drop]
        congr 1
        omega
      have h2 : e + FIGPACK_SUFFIX.toList.length - s - (e - s) = FIGPACK_SUFFIX.toList.length := by
        omega
      rw [h1, h2, ← ht2]
      exact List.take_left _ _
    conv_lhs => rw [← hkey]
    exact List.drop_suffix _ _

/-! ### Claim theorems about the Scan stage -/

/-- C2: every url the per-file scan emits begins with the exact
`FIGPACK_PREFIX` and ends with the exact `FIGPACK_SUFFIX` (including in the
overlap case where the suffix match starts on the marker's final slash),
and every emitted url arises from a prefix occurrence at some `s ≥ pos`
together with a suffix occurrence at some `e ≥ s` — so no record is emitted
for a prefix occurrence with no suffix occurrence at or after it. -/
theorem extract_url_bounds (text : List Char) (pos : Nat) :
    ∀ u, u ∈ extract_urls text pos →
      FIGPACK_PREFIX.toList <+: u ∧ FIGPACK_SUFFIX.toList <:+ u ∧
      ∃ s e, pos ≤ s ∧ s ≤ e ∧
        FIGPACK_PREFIX.toList <+: text.drop s ∧
        FIGPACK_SUFFIX.toList <+: text.drop e ∧
        u = (text.drop s).take (e + FIGPACK_SUFFIX.toList.length - s) := by
  induction pos using extract_urls.induct text with
  | case1 p hp =>
    rw [extract_none hp]
    intro u hu
    exact absurd hu (List.not_mem_nil u)
  | case2 p s hp hs ih =>
    rw [extract_miss hp hs]
    intro u hu
    obtain ⟨h1, h2, s', e', hs', he', hpp, hsp, hu⟩ := ih u hu
    have hps := (findFrom_eq_some hp).1
    exact ⟨h1, h2, s', e', by omega, he', hpp, hsp, hu⟩
  | case3 p s hp e hs ih =>
    rw [extract_hit hp hs]
    intro u hu
    rcases List.mem_cons.1 hu with rfl | hu'
    · obtain ⟨hps, hsl, hpp⟩ := findFrom_eq_some hp
      obtain ⟨hse, hel, hsp⟩ := findFrom_eq_some hs
      obtain ⟨hhead, htail⟩ := url_shape hse hpp hsp
      exact ⟨hhead, htail, s, e, hps, hse, hpp, hsp, rfl⟩
    · obtain ⟨h1, h2, s', e', hs', he', hpp, hsp, hu⟩ := ih u hu'
      have hps := (findFrom_eq_some hp).1
      have hse := (findFrom_eq_some hs).1
      exact ⟨h1, h2, s', e', by omega, he', hpp, hsp, hu⟩

/-- C2 witness: the scenario file text of spec §8 produces a url that the
theorem's conclusion describes. -/
theorem extract_url_bounds_witness :
    FIGPACK_PREFIX.toList <+: ("https://figures.figpack.org/abc/index.html").toList ∧
    FIGPACK_SUFFIX.toList <:+ ("https://figures.figpack.org/abc/index.html").toList ∧
    ∃ s e, 0 ≤ s ∧ s ≤ e ∧
      FIGPACK_PREFIX.toList <+:
        ("see https://figures.figpack.org/abc/index.html and more").toList.drop s ∧
      FIGPACK_SUFFIX.toList <+:
        ("see https://figures.figpack.org/abc/index.html and more").toList.drop e ∧
      ("https://figures.figpack.org/abc/index.html").toList =
        (("see https://figures.figpack.org/abc/index.html and more").toList.drop s).take
          (e + FIGPACK_SUFFIX.toList.length - s) := by
  apply extract_url_bounds ("see https://figures.figpack.org/abc/index.html and more").toList 0
  rw [extract_hit (s := 4) (e := 35) (by decide) (by decide), extract_none (by decide)]
  decide

theorem extract_eq_spec (text : List Char) (pos : Nat) :
    extract_urls text pos = specExtractUrls text pos := by
  induction pos using extract_urls.induct text with
  | case1 p hp => rw [extract_none hp, spec_extract_none hp]
  | case2 p s hp hs ih => rw [extract_miss hp hs, spec_extract_miss hp hs, ih]
  | case3 p s hp e hs ih => rw [extract_hit hp hs, spec_extract_hit hp hs, ih]

/-- C1: for every file text the per-file extraction of
`scan_repo_for_figpack` produces exactly the records of the spec's cursor
algorithm (`specExtractUrls`, written from the spec's words): find the next
prefix occurrence at `s`, search for the suffix from `s` itself, advance
the cursor to `s + 1` on a miss, emit `text[s : e + L]` and advance to
`e + 1` on a hit at `e`. -/
theorem extract_matches_spec_algorithm (full_name rel : String) (text : List Char) (pos : Nat) :
    extract_urls text pos = specExtractUrls text pos ∧
    scan_file full_name rel text =
      (specExtractUrls text 0).map
        (fun u => { repo := full_name, file := rel, url := String.mk u }) := by
  refine ⟨extract_eq_spec text pos, ?_⟩
  rw [scan_file, extract_eq_spec]

/-- C9: the per-file extraction loop terminates after at most
`text.length - pos` productive passes, because the cursor strictly
increases on every pass (to `start_idx + 1` on a suffix miss, to
`end_idx + 1` on a hit). -/
theorem scan_terminates_linear (text : List Char) (pos : Nat) :
    scanSteps text pos ≤ text.length - pos := by
  induction pos using scanSteps.induct text with
  | case1 p hp => rw [steps_none hp]; exact Nat.zero_le _
  | case2 p s hp hs ih =>
    rw [steps_miss hp hs]
    obtain ⟨hps, hsl, hpp⟩ := findFrom_eq_some hp
    have hlen := hpp.length_le
    rw [List.length_drop, headMarker_length] at hlen
    omega
  | case3 p s hp e hs ih =>
    rw [steps_hit hp hs]
    obtain ⟨hps, hsl, hpp⟩ := findFrom_eq_some hp
    obtain ⟨hse, hel, hsp⟩ := findFrom_eq_some hs
    have hlen := hsp.length_le
    rw [List.length_drop, tailMarker_length] at hlen
    omega

/-- C3 counterexample: on the two-prefix/one-suffix scenario text, the scan
emits the url that starts at the FIRST prefix occurrence (index 2), not the
one that would start at the second prefix occurrence — the output is not
the singleton of the second-occurrence url claimed. -/
theorem two_head_markers_counterexample :
    extract_urls
        ("A https://figures.figpack.org/x B https://figures.figpack.org/y /index.html").toList
        0 ≠
      [("https://figures.figpack.org/y /index.html").toList] := by
  rw [extract_hit (s := 2) (e := 64) (by decide) (by decide), extract_none (by decide)]
  decide

/-- C3 amended: on the two-prefix/one-suffix scenario text the scan emits
exactly one record, and it is the FIRST prefix occurrence that pairs with
the single suffix occurrence: the emitted url is the whole substring from
the first occurrence of the prefix (index 2) through the end of the suffix,
which itself contains the second prefix occurrence. -/
theorem two_head_markers_single_record :
    extract_urls
        ("A https://figures.figpack.org/x B https://figures.figpack.org/y /index.html").toList
        0 =
      [("https://figures.figpack.org/x B https://figures.figpack.org/y /index.html").toList] := by
  rw [extract_hit (s := 2) (e := 64) (by decide) (by decide), extract_none (by decide)]
  decide

/-! ### Claim theorems about the Finalization stage -/

theorem dedup_go_sublist : ∀ (l : List MatchRecord) (seen : List (String × String × String)),
    (dedup_go seen l).Sublist l := by
  intro l
  induction l with
  | nil => intro seen; rw [dedup_go]
  | cons r rest ih =>
    intro seen
    rw [dedup_go]
    split
    · exact (ih seen).cons r
    · exact (ih _).cons₂ r

theorem dedup_go_eq_firstOcc :
    ∀ (l : List MatchRecord) (seen : List (String × String × String)),
      dedup_go seen l = firstOccDedup (l.filter (fun x => decide (recKey x ∉ seen))) := by
  intro l
  induction l with
  | nil => intro seen; simp [dedup_go, firstOccDedup]
  | cons r rest ih =>
    intro seen
    rw [dedup_go, List.filter_cons]
    split
    next hmem =>
      have hb : decide (recKey r ∉ seen) = false := by simp [hmem]
      rw [hb]
      simp only [Bool.false_eq_true, if_false]
      exact ih seen
    next hmem =>
      have hb : decide (recKey r ∉ seen) = true := by simp [hmem]
      rw [hb]
      simp only [if_true]
      rw [firstOccDedup, ih (recKey r :: seen), List.filter_filter]
      congr 2
      apply List.filter_congr
      intro x _
      simp [List.mem_cons, not_or, Bool.and_comm]

theorem dedupRecords_eq_firstOcc (l : List MatchRecord) :
    dedupRecords l = firstOccDedup l := by
  rw [dedupRecords, dedup_go_eq_firstOcc]
  congr 1
  simp

theorem firstOccDedup_subset : ∀ (l : List MatchRecord) (x : MatchRecord),
    x ∈ firstOccDedup l → x ∈ l := by
  intro l
  induction l using firstOccDedup.induct with
  | case1 =>
    intro x hx
    rw [firstOccDedup] at hx
    exact absurd hx (List.not_mem_nil x)
  | case2 r rest ih =>
    intro x hx
    rw [firstOccDedup] at hx
    rcases List.mem_cons.1 hx with rfl | hx'
    · exact List.mem_cons_self _ _
    · exact List.mem_cons_of_mem _ (List.mem_of_mem_filter (ih x hx'))

theorem firstOccDedup_keys_nodup : ∀ l : List MatchRecord,
    ((firstOccDedup l).map recKey).Nodup := by
  intro l
  induction l using firstOccDedup.induct with
  | case1 => rw [firstOccDedup]; simp
  | case2 r rest ih =>
    rw [firstOccDedup, List.map_cons]
    refine List.nodup_cons.2 ⟨?_, ih⟩
    intro hmem
    obtain ⟨y, hy, hkey⟩ := List.mem_map.1 hmem
    have hy' := firstOccDedup_subset _ _ hy
    have hne := List.of_mem_filter hy'
    simp only [decide_eq_true_eq] at hne
    exact hne hkey

theorem firstOccDedup_complete : ∀ (l : List MatchRecord) (r : MatchRecord),
    r ∈ l → recKey r ∈ (firstOccDedup l).map recKey := by
  intro l
  induction l using firstOccDedup.induct with
  | case1 => intro r hr; exact absurd hr (List.not_mem_nil r)
  | case2 x rest ih =>
    intro r hr
    rw [firstOccDedup, List.map_cons]
    rcases List.mem_cons.1 hr with rfl | hr'
    · exact List.mem_cons_self _ _
    · by_cases hk : recKey r = recKey x
      · rw [hk]; exact List.mem_cons_self _ _
      · refine List.mem_cons_of_mem _ (ih r ?_)
        exact List.mem_filter.2 ⟨hr', by simp [hk]⟩

/-- C4: the Finalization dedup step of `main` equals the first-occurrence
deduplication of the spec (`firstOccDedup`, written from the spec's words);
its output is a subsequence of the input, its `(repo, file, url)` keys are
pairwise distinct, and every input record's key still occurs in the
output. -/
theorem dedup_first_occurrence (records : List MatchRecord) :
    dedupRecords records = firstOccDedup records ∧
    (dedupRecords records).Sublist records ∧
    ((dedupRecords records).map recKey).Nodup ∧
    ∀ r ∈ records, recKey r ∈ (dedupRecords records).map recKey := by
  have he := dedupRecords_eq_firstOcc records
  refine ⟨he, dedup_go_sublist records [], ?_, ?_⟩
  · rw [he]; exact firstOccDedup_keys_nodup records
  · intro r hr
    rw [he]
    exact firstOccDedup_complete records r hr

/-- C4 witness: the dedup law instantiated on a concrete three-record list
with a duplicated triple. -/
theorem dedup_first_occurrence_witness :
    dedupRecords
        [{ repo := "o/n", file := "a.md", url := "u" },
         { repo := "o/n", file := "b.md", url := "u" },
         { repo := "o/n", file := "a.md", url := "u" }] =
      firstOccDedup
        [{ repo := "o/n", file := "a.md", url := "u" },
         { repo := "o/n", file := "b.md", url := "u" },
         { repo := "o/n", file := "a.md", url := "u" }] ∧
    (dedupRecords
        [{ repo := "o/n", file := "a.md", url := "u" },
         { repo := "o/n", file := "b.md", url := "u" },
         { repo := "o/n", file := "a.md", url := "u" }]).Sublist
      [{ repo := "o/n", file := "a.md", url := "u" },
       { repo := "o/n", file := "b.md", url := "u" },
       { repo := "o/n", file := "a.md", url := "u" }] ∧
    ((dedupRecords
        [{ repo := "o/n", file := "a.md", url := "u" },
         { repo := "o/n", file := "b.md", url := "u" },
         { repo := "o/n", file := "a.md", url := "u" }]).map recKey).Nodup ∧
    recKey { repo := "o/n", file := "a.md", url := "u" } ∈
      (dedupRecords
        [{ repo := "o/n", file := "a.md", url := "u" },
         { repo := "o/n", file := "b.md", url := "u" },
         { repo := "o/n", file := "a.md", url := "u" }]).map recKey := by
  have h := dedup_first_occurrence
    [{ repo := "o/n", file := "a.md", url := "u" },
     { repo := "o/n", file := "b.md", url := "u" },
     { repo := "o/n", file := "a.md", url := "u" }]
  exact ⟨h.1, h.2.1, h.2.2.1, h.2.2.2 _ (by simp)⟩

/-! ### Claim theorems about the Query stage -/

theorem search_code_go_items (respond : Nat → Nat → HttpResp) (now : Int) (per_page : Nat) :
    ∀ pages : List Nat,
      (search_code_go respond now per_page pages).1 = specQueryItems respond now per_page pages := by
  intro pages
  induction pages with
  | nil => rfl
  | cons page rest ih =>
    rw [search_code_go, specQueryItems]
    dsimp only
    split
    · rfl
    · split
      · rfl
      · split
        · rfl
        · dsimp only
          rw [ih]

/-- C6: the Query Stage returns the concatenation of the item lists of
pages `1 .. max_pages` as described by the spec contract
(`specQueryItems`, written from the spec's words): stop at the first page
whose post-retry status is not 200, keeping all previously accumulated
items; or whose item list is empty, that page contributing nothing; or
whose item count is less than `per_page`, that page's items included —
checked in that order on every iteration. -/
theorem search_code_pagination (respond : Nat → Nat → HttpResp) (now : Int)
    (max_pages per_page : Nat) :
    (search_code respond now max_pages per_page).1 =
      specQueryItems respond now per_page (List.range' 1 max_pages) := by
  rw [search_code]
  exact search_code_go_items respond now per_page (List.range' 1 max_pages)

/-- C5 counterexample: an HTTP 429 rate-limit response with exhausted quota
(`X-RateLimit-Remaining = "0"`) and a reset timestamp is NOT retried: the
trace for that page is a single request with no sleep — `search_code` only
treats status 403 specially, so the claim's sleep-and-retry for HTTP 429
fails. -/
theorem rate_limit_429_no_retry :
    (fetch_page
        (fun _ _ => { status := 429, remaining := some "0", reset := some 100, items := [] })
        0 1).2 = [QueryEvent.request 1 0] ∧
    QueryEvent.request 1 1 ∉
      (fetch_page
        (fun _ _ => { status := 429, remaining := some "0", reset := some 100, items := [] })
        0 1).2 := by
  constructor
  · rfl
  · decide

/-- C5 amended: whenever a search page request returns an HTTP 403
rate-limit response whose `X-RateLimit-Remaining` header is `"0"` and
whose `X-RateLimit-Reset` header carries a timestamp, the Query Stage
sleeps until one second past the reset timestamp
(`max 0 (ts - now) + 1` seconds) and then retries that same page exactly
once; HTTP 429 responses receive no retry and fall through to the generic
non-200 handling. -/
theorem rate_limit_403_sleep_retry (respond : Nat → Nat → HttpResp) (now : Int)
    (page : Nat) (ts : Int)
    (h403 : (respond page 0).status = 403)
    (hrem : (respond page 0).remaining = some "0")
    (hres : (respond page 0).reset = some ts) :
    fetch_page respond now page =
      (respond page 1,
       [QueryEvent.request page 0, QueryEvent.sleep (max 0 (ts - now) + 1),
        QueryEvent.request page 1]) := by
  rw [fetch_page]
  rw [if_pos h403, handle_rate_limit, if_neg (by rw [h403]; simp), hrem, hres]
  rfl

/-- C5 witness: the 403 sleep-and-retry law at a concrete oracle. -/
theorem rate_limit_403_sleep_retry_witness :
    fetch_page
        (fun _ _ => { status := 403, remaining := some "0", reset := some 100, items := [] })
        5 1 =
      ({ status := 403, remaining := some "0", reset := some 100, items := [] },
       [QueryEvent.request 1 0, QueryEvent.sleep (max 0 ((100 : Int) - 5) + 1),
        QueryEvent.request 1 1]) :=
  rate_limit_403_sleep_retry
    (fun _ _ => { status := 403, remaining := some "0", reset := some 100, items := [] })
    5 1 100 rfl rfl rfl

/-- C10: every HTTP 403 response from the search endpoint causes the same
page to be retried exactly once — the page's trace is the first request,
then whatever `handle_rate_limit` does, then the one retry request — and
`handle_rate_limit` performs no sleep when the `X-RateLimit-Remaining`
header differs from `"0"` or the `X-RateLimit-Reset` header is absent. -/
theorem http403_single_retry (respond : Nat → Nat → HttpResp) (now : Int) (page : Nat)
    (h403 : (respond page 0).status = 403) :
    (fetch_page respond now page).2 =
      QueryEvent.request page 0 :: handle_rate_limit (respond page 0) now ++
        [QueryEvent.request page 1] ∧
    ((respond page 0).remaining ≠ some "0" ∨ (respond page 0).reset = none →
      handle_rate_limit (respond page 0) now = []) := by
  constructor
  · rw [fetch_page]
    rw [if_pos h403]
  · intro hc
    rw [handle_rate_limit, if_neg (by rw [h403]; simp)]
    split
    next heq1 heq2 =>
      rcases hc with hc | hc
      · exact absurd heq1 hc
      · rw [hc] at heq2; exact absurd heq2 (by simp)
    next => rfl

/-- C10 witness: a 403 with a missing remaining-quota header is retried
immediately, with no sleep. -/
theorem http403_single_retry_witness :
    (fetch_page (fun _ _ => { status := 403, remaining := none, reset := none, items := [] })
        0 1).2 =
      QueryEvent.request 1 0 ::
        handle_rate_limit
          ({ status := 403, remaining := none, reset := none, items := [] } : HttpResp) 0 ++
        [QueryEvent.request 1 1] ∧
    handle_rate_limit
        ({ status := 403, remaining := none, reset := none, items := [] } : HttpResp) 0 = [] := by
  have h := http403_single_retry
    (fun _ _ => { status := 403, remaining := none, reset := none, items := [] }) 0 1 rfl
  exact ⟨h.1, h.2 (Or.inr rfl)⟩

/-! ### Claim theorems about Acquisition and orchestration -/

/-- C7: if the deterministic clone target (workdir joined with the
identifier with each slash replaced by a double underscore) already exists,
`clone_repo` reports success with that path, leaves the directory set
unchanged, and performs zero `git clone` invocations; consequently, after
any run of `clone_repo` that reported success, running it again on the
resulting directory set changes nothing and performs no clone
invocation. -/
theorem clone_repo_idempotent (gitOk : String → Bool) (fsDirs : List String)
    (full_name workdir : String) :
    (cloneTarget workdir full_name ∈ fsDirs →
      clone_repo gitOk fsDirs full_name workdir =
        ({ full_name := full_name, path := cloneTarget workdir full_name, ok := true },
         fsDirs, 0)) ∧
    ((clone_repo gitOk fsDirs full_name workdir).1.ok = true →
      clone_repo gitOk (clone_repo gitOk fsDirs full_name workdir).2.1 full_name workdir =
        ({ full_name := full_name, path := cloneTarget workdir full_name, ok := true },
         (clone_repo gitOk fsDirs full_name workdir).2.1, 0)) := by
  constructor
  · intro hmem
    rw [clone_repo]
    rw [if_pos hmem]
  · intro hok
    by_cases hmem : cloneTarget workdir full_name ∈ fsDirs
    · simp [clone_repo, hmem]
    · by_cases hg : gitOk full_name
      · simp [clone_repo, hmem, hg]
      · exact absurd hok (by simp [clone_repo, hmem, hg])

/-- C7 witness: the idempotence law at a concrete already-present target. -/
theorem clone_repo_idempotent_witness :
    clone_repo (fun _ => true) [cloneTarget "wd" "o/n"] "o/n" "wd" =
      ({ full_name := "o/n", path := cloneTarget "wd" "o/n", ok := true },
       [cloneTarget "wd" "o/n"], 0) ∧
    clone_repo (fun _ => true)
        (clone_repo (fun _ => true) [cloneTarget "wd" "o/n"] "o/n" "wd").2.1 "o/n" "wd" =
      ({ full_name := "o/n", path := cloneTarget "wd" "o/n", ok := true },
       (clone_repo (fun _ => true) [cloneTarget "wd" "o/n"] "o/n" "wd").2.1, 0) := by
  have h := clone_repo_idempotent (fun _ => true) [cloneTarget "wd" "o/n"] "o/n" "wd"
  exact ⟨h.1 (List.mem_singleton.2 rfl), h.2 (by rw [h.1 (List.mem_singleton.2 rfl)])⟩

/-- C8: if Aggregation discovers zero repositories, `main` writes exactly
"[]", performs no clone invocation and never reaches the Scan stage; if
Acquisition produces zero successful clones, `main` writes exactly "[]"
and never reaches the Scan stage.  In the model `mainModel` returns
normally (exit code 0) in both cases. -/
theorem empty_results_early_exit (respond : Nat → Nat → HttpResp) (now : Int)
    (maxPages perPage : Nat) (gitOk : String → Bool) (fs0 : List String) (workdir : String)
    (repoFiles : String → List (String × List Char)) :
    (collect_unique_repos (search_code respond now maxPages perPage).1 = [] →
      mainModel respond now maxPages perPage gitOk fs0 workdir repoFiles =
        { written := "[]", cloneCalls := 0, ranScan := false }) ∧
    ((acquireAll gitOk workdir fs0
        (collect_unique_repos (search_code respond now maxPages perPage).1)).1 = [] →
      (mainModel respond now maxPages perPage gitOk fs0 workdir repoFiles).written = "[]" ∧
      (mainModel respond now maxPages perPage gitOk fs0 workdir repoFiles).ranScan = false) := by
  constructor
  · intro h
    rw [mainModel]
    rw [if_pos (by rw [h]; rfl)]
  · intro h
    rw [mainModel]
    by_cases hrep :
        (collect_unique_repos (search_code respond now maxPages perPage).1).isEmpty = true
    · rw [if_pos hrep]
      exact ⟨rfl, rfl⟩
    · rw [if_neg hrep]
      rw [if_pos (by rw [h]; rfl)]
      exact ⟨rfl, rfl⟩

/-- C8 witness: a search oracle that returns an empty first page leads to
zero repositories and the early empty-array exit. -/
theorem empty_results_early_exit_witness :
    mainModel (fun _ _ => { status := 200, remaining := none, reset := none, items := [] })
        0 1 100 (fun _ => true) [] "wd" (fun _ => []) =
      { written := "[]", cloneCalls := 0, ranScan := false } ∧
    (mainModel (fun _ _ => { status := 200, remaining := none, reset := none, items := [] })
        0 1 100 (fun _ => true) [] "wd" (fun _ => [])).written = "[]" ∧
    (mainModel (fun _ _ => { status := 200, remaining := none, reset := none, items := [] })
        0 1 100 (fun _ => true) [] "wd" (fun _ => [])).ranScan = false := by
  have h := empty_results_early_exit
    (fun _ _ => { status := 200, remaining := none, reset := none, items := [] })
    0 1 100 (fun _ => true) [] "wd" (fun _ => [])
  exact ⟨h.1 rfl, h.2 rfl⟩
